import Mathlib

/-!
Formal model of the discrete Fourier transform routines of this repository
(`src/python/fft.py` and `src/python/anyfft.py`).

Samples are complex numbers (`ℂ`) and sequences are `List ℂ`; the
floating-point arithmetic of the source is idealized as exact complex
arithmetic.  Element reads `x[n]` are modelled with `List.getD` (the loops
only ever read in bounds) and in-place writes `X[k] = v` with `List.set`.
Python `for` loops threading mutable state are modelled as `List.foldl`
over `List.range`, carrying the mutated buffer and the running-product
twiddle factors exactly as the source updates them.
-/

/-- The loop of `bit_reverse` (`fft.py`, lines 201-204): `r` iterations of
`l = (l << 1) + (k & 1); k = k >> 1`, threading the pair `(k, l)`. -/
def bit_reverse_go : ℕ → ℕ → ℕ → ℕ
  | _, 0, l => l
  | k, r + 1, l => bit_reverse_go (k / 2) r (2 * l + k % 2)

/-- `bit_reverse` from `fft.py` (lines 188-205): the low `r` bits of `k`,
mirrored. -/
def bit_reverse (k r : ℕ) : ℕ :=
  bit_reverse_go k r 0

namespace anyfft

/-- `int(ceil(sqrt(n)))` from `anyfft.py` line 93, computed exactly:
`⌈√n⌉` is the least `r` with `n ≤ r·r`, searched among `0..n+1` (a range
that always contains it, since `n ≤ (n+1)·(n+1)`). -/
def ceil_sqrt (n : ℕ) : ℕ :=
  (((List.range (n + 2)).find? (fun r => n ≤ r * r)).getD n)

/-- `__factor` from `anyfft.py` (lines 81-97): trial division over
`range(2, rn+1)` with `rn = int(ceil(sqrt(n)))`; the first divisor found is
returned (`find?` returns the first list element satisfying the predicate),
otherwise `n` itself. -/
def __factor (n : ℕ) : ℕ :=
  ((List.range' 2 (ceil_sqrt n + 1 - 2)).find? (fun i => n % i == 0)).getD n

end anyfft

noncomputable section

/-- Python slice `x[j::s]` (elements `x[j], x[j+s], x[j+2s], ...`): it has
`⌈(len(x) - j) / s⌉` elements and its `m`-th element is `x[j + m*s]`. -/
def strided (x : List ℂ) (j s : ℕ) : List ℂ :=
  (List.range ((x.length - j + s - 1) / s)).map (fun m => x.getD (j + m * s) 0)

/-- `direct_ft` from `fft.py` (lines 51-76) and, with identical code,
`anyfft.py` (lines 52-76).  The outer fold carries the state `(X, Wk)` and
the inner fold the state `(X, Wkn)`, mirroring the source's running-product
twiddle updates `Wkn = Wkn * Wk` (each inner step) and `Wk = Wk * W` (each
outer step), with `W = exp(-2j*pi/N)`. -/
def direct_ft (x : List ℂ) : List ℂ :=
  ((List.range x.length).foldl
    (fun (s : List ℂ × ℂ) k =>
      (((List.range x.length).foldl
        (fun (t : List ℂ × ℂ) n =>
          (t.1.set k (t.1.getD k 0 + x.getD n 0 * t.2), t.2 * s.2))
        (s.1, 1)).1,
       s.2 * Complex.exp (-(2 * (Real.pi : ℂ) * Complex.I) / x.length)))
    (List.replicate x.length 0, 1)).1

/-- The specification formula for the transform (spec §4.3):
`X[k] = Σ_{n=0}^{N-1} x[n] · e^(−2πi·k·n/N)` for `k = 0..N-1`. -/
def dft (x : List ℂ) : List ℂ :=
  (List.range x.length).map (fun (k : ℕ) =>
    ∑ n ∈ Finset.range x.length,
      x.getD n 0 * Complex.exp (-(2 * (Real.pi : ℂ) * Complex.I * k * n) / x.length))

/-- `recursive_fft` from `fft.py` (lines 133-156): radix-2 decimation in
time.  The source guard is `len(x) == 1`; on the empty list the source
recursion does not terminate (an `x[0::2]` split of `[]` is `[]` again), so
this embedding additionally returns the empty list there to stay total —
no power-of-two input reaches that branch. -/
def recursive_fft (x : List ℂ) : List ℂ :=
  if _h : x.length ≤ 1 then x
  else
    let N := x.length
    let Xe := recursive_fft (strided x 0 2)
    let Xo := recursive_fft (strided x 1 2)
    let W := (List.range (N / 2)).map (fun (k : ℕ) =>
      Complex.exp (-(2 * (Real.pi : ℂ) * Complex.I * k) / N))
    let WXo := List.zipWith (fun Wk Xok => Wk * Xok) W Xo
    List.zipWith (fun Xek WXok => Xek + WXok) Xe WXo ++
      List.zipWith (fun Xek WXok => Xek - WXok) Xe WXo
termination_by x.length
decreasing_by
  all_goals
    simp only [strided, List.length_map, List.length_range]
    omega

/-- The reordering loop of `iterative_fft` (`fft.py`, lines 226-229):
starting from a buffer holding a copy of `x`, write `x[k]` to position
`bit_reverse k r`, for each `k` in order. -/
def bitrev_permute (x : List ℂ) (r : ℕ) : List ℂ :=
  (List.range x.length).foldl (fun X k => X.set (bit_reverse k r) (x.getD k 0)) x

/-- One iteration of the innermost loop of `iterative_fft` (`fft.py`, lines
237-241) on the state `(X, Wkn)`: with `p = l + n` and `q = p + step`,
perform the in-place updates `X[q] = X[p] - Wkn*X[q]`, then
`X[p] = 2*X[p] - X[q]` (reading the just-written `X[q]`), then the running
twiddle update `Wkn = Wkn * W`. -/
def butterfly_step (W : ℂ) (l step : ℕ) (s : List ℂ × ℂ) (n : ℕ) : List ℂ × ℂ :=
  let p := l + n
  let q := l + n + step
  let X1 := s.1.set q (s.1.getD p 0 - s.2 * s.1.getD q 0)
  (X1.set p (2 * X1.getD p 0 - X1.getD q 0), s.2 * W)

/-- The innermost loop of `iterative_fft` (`fft.py`, lines 235-241): the
in-place butterfly over the block starting at `l` with half-width `step`,
starting from the running twiddle `Wkn = 1`. -/
def butterfly_block (W : ℂ) (l step : ℕ) (X : List ℂ) : List ℂ :=
  ((List.range step).foldl (butterfly_step W l step) (X, 1)).1

/-- The middle loop of `iterative_fft` (`fft.py`, lines 233-241):
`for l in range(0, N, 2*step)`, i.e. one `butterfly_block` at
`l = i·(2·step)` for each `i < ⌈N/(2·step)⌉`, with the twiddle base
`W = exp(-1j*pi/step)` recomputed (identically) for each block. -/
def fft_merge_pass (N step : ℕ) (X : List ℂ) : List ℂ :=
  (List.range ((N + 2 * step - 1) / (2 * step))).foldl
    (fun Y i =>
      butterfly_block (Complex.exp (-((Real.pi : ℂ) * Complex.I) / step))
        (i * (2 * step)) step Y)
    X

/-- `iterative_fft` from `fft.py` (lines 210-244).  The source computes the
bit count as `r = int(log(N)/log(2))`, which over exact reals is `⌊log₂ N⌋`,
i.e. `Nat.log2 N` (on the empty input Python's `int(-inf)` raises; `Nat.log2
0 = 0` keeps the model total).  After the bit-reversal reordering, `r`
merge passes run, `step` doubling after each pass. -/
def iterative_fft (x : List ℂ) : List ℂ :=
  ((List.range (Nat.log2 x.length)).foldl
    (fun (s : List ℂ × ℕ) _ => (fft_merge_pass x.length s.2 s.1, 2 * s.2))
    (bitrev_permute x (Nat.log2 x.length), 1)).1

namespace anyfft

/-- `recursive_fft` from `anyfft.py` (lines 102-132): mixed-radix
Cooley-Tukey.  If `N1 = __factor(N)` equals `N` (prime length, or `N ≤ 1`)
the transform is delegated to `direct_ft`; otherwise the `N1` sub-transforms
`Xj = recursive_fft(x[j::N1])` (hoisted into `subs` below, sound because the
function is pure) are accumulated into `X` by the double loop
`X[k] += Xj[k % N2] * Wkj`, with the source's running-product twiddles
`Wkj = Wkj * Wj` (inner) and `Wj = Wj * W` (outer), `W = exp(-2j*pi/N)`. -/
def recursive_fft (x : List ℂ) : List ℂ :=
  if _h : __factor x.length = x.length then direct_ft x
  else
    let N := x.length
    let N1 := __factor N
    let N2 := N / N1
    let subs := (List.range N1).map (fun j' => recursive_fft (strided x j' N1))
    ((List.range N1).foldl
      (fun (s : List ℂ × ℂ) j =>
        (((List.range N).foldl
          (fun (t : List ℂ × ℂ) k =>
            (t.1.set k (t.1.getD k 0 + (subs.getD j []).getD (k % N2) 0 * t.2),
             t.2 * s.2))
          (s.1, 1)).1,
         s.2 * Complex.exp (-(2 * (Real.pi : ℂ) * Complex.I) / N)))
      (List.replicate N 0, 1)).1
termination_by x.length
decreasing_by
  have hF : 2 ≤ __factor x.length ∧ __factor x.length ∣ x.length := by
    cases hfind : (List.range' 2 (ceil_sqrt x.length - 1)).find?
        (fun i => x.length % i == 0) with
    | none => exact absurd (by simp [__factor, hfind]) _h
    | some i =>
      have hmem := List.mem_of_find?_eq_some hfind
      have hi2 : 2 ≤ i := (List.mem_range'_1.mp hmem).1
      have hdvd : i ∣ x.length :=
        Nat.dvd_of_mod_eq_zero (by simpa using List.find?_some hfind)
      have hEq : __factor x.length = i := by simp [__factor, hfind]
      exact hEq ▸ ⟨hi2, hdvd⟩
  have hN0 : 0 < x.length := by
    rcases Nat.eq_zero_or_pos x.length with h0 | h0
    · exact absurd (by rw [h0]; decide) _h
    · exact h0
  have hmN : x.length / __factor x.length < x.length :=
    Nat.div_lt_self hN0 (lt_of_lt_of_le one_lt_two hF.1)
  simp only [strided, List.length_map, List.length_range]
  calc (x.length - j' + __factor x.length - 1) / __factor x.length
      ≤ (__factor x.length - 1 + x.length) / __factor x.length :=
        Nat.div_le_div_right (by omega)
    _ = (__factor x.length - 1 + __factor x.length * (x.length / __factor x.length)) /
          __factor x.length := by rw [Nat.mul_div_cancel' hF.2]
    _ = (__factor x.length - 1) / __factor x.length + x.length / __factor x.length :=
        Nat.add_mul_div_left _ _ (by omega)
    _ = x.length / __factor x.length := by rw [Nat.div_eq_of_lt (by omega), Nat.zero_add]
    _ < x.length := hmN

end anyfft

end

/-! ### Generic access lemmas for the list/fold embedding -/

theorem getD_map_range {α : Type*} (d : α) (f : ℕ → α) {k N : ℕ} (h : k < N) :
    ((List.range N).map f).getD k d = f k := by
  simp [List.getD_eq_getElem?_getD, List.getElem?_map, List.getElem?_range h]

theorem getD_set_self {α : Type*} (d : α) {l : List α} {i : ℕ} (h : i < l.length) (a : α) :
    (l.set i a).getD i d = a := by
  simp [List.getD_eq_getElem?_getD, List.getElem?_set_self h]

theorem getD_set_ne {α : Type*} (d : α) {l : List α} {i j : ℕ} (h : i ≠ j) (a : α) :
    (l.set i a).getD j d = l.getD j d := by
  simp [List.getD_eq_getElem?_getD, List.getElem?_set_ne h]

theorem getD_replicate {k N : ℕ} : (List.replicate N (0 : ℂ)).getD k 0 = 0 := by
  rw [List.getD_eq_getElem?_getD, List.getElem?_replicate]
  split <;> rfl

theorem getD_append_left {α : Type*} (d : α) {a b : List α} {i : ℕ} (h : i < a.length) :
    (a ++ b).getD i d = a.getD i d := by
  simp [List.getD_eq_getElem?_getD, List.getElem?_append_left h]

theorem getD_append_right {α : Type*} (d : α) {a b : List α} {i : ℕ} (h : a.length ≤ i) :
    (a ++ b).getD i d = b.getD (i - a.length) d := by
  simp [List.getD_eq_getElem?_getD, List.getElem?_append_right h]

theorem getD_zipWith (f : ℂ → ℂ → ℂ) {a b : List ℂ} {i : ℕ}
    (ha : i < a.length) (hb : i < b.length) :
    (List.zipWith f a b).getD i 0 = f (a.getD i 0) (b.getD i 0) := by
  have hlen : i < (List.zipWith f a b).length := by
    simp only [List.length_zipWith, lt_min_iff]; exact ⟨ha, hb⟩
  rw [List.getD_eq_getElem _ _ hlen, List.getD_eq_getElem _ _ ha,
    List.getD_eq_getElem _ _ hb, List.getElem_zipWith]

theorem list_eq_of_getD {a b : List ℂ} (hl : a.length = b.length)
    (h : ∀ i, i < a.length → a.getD i 0 = b.getD i 0) : a = b := by
  apply List.ext_getElem hl
  intro n h1 h2
  have hn := h n h1
  rwa [List.getD_eq_getElem _ _ h1, List.getD_eq_getElem _ _ h2] at hn

/-! ### Slices -/

theorem strided_length (x : List ℂ) (j s : ℕ) :
    (strided x j s).length = (x.length - j + s - 1) / s := by
  simp [strided]

theorem strided_getD (x : List ℂ) (j s : ℕ) {m : ℕ}
    (h : m < (strided x j s).length) :
    (strided x j s).getD m 0 = x.getD (j + m * s) 0 := by
  rw [strided_length] at h
  simp only [strided]
  exact getD_map_range 0 _ h

/-! ### The specification transform -/

theorem dft_length (x : List ℂ) : (dft x).length = x.length := by
  simp [dft]

theorem dft_getD (x : List ℂ) {k : ℕ} (h : k < x.length) :
    (dft x).getD k 0 =
      ∑ n ∈ Finset.range x.length,
        x.getD n 0 * Complex.exp (-(2 * (Real.pi : ℂ) * Complex.I * k * n) / x.length) := by
  simp only [dft]
  exact getD_map_range 0 _ h

/-! ### Complex exponential helpers -/

theorem cexp_pow (c : ℂ) (n : ℕ) : Complex.exp c ^ n = Complex.exp (n * c) :=
  (Complex.exp_nat_mul c n).symm

theorem cexp_neg_two_pi_nat (a : ℕ) :
    Complex.exp (-(2 * (Real.pi : ℂ) * Complex.I * a)) = 1 := by
  have h : -(2 * (Real.pi : ℂ) * Complex.I * a) = (a : ℂ) * -(2 * (Real.pi : ℂ) * Complex.I) := by
    ring
  rw [h, Complex.exp_nat_mul, Complex.exp_neg, Complex.exp_two_pi_mul_I]
  simp

theorem base_pow_eq (N i n : ℕ) :
    (Complex.exp (-(2 * (Real.pi : ℂ) * Complex.I) / N) ^ i) ^ n
      = Complex.exp (-(2 * (Real.pi : ℂ) * Complex.I * i * n) / N) := by
  rw [cexp_pow, cexp_pow]
  congr 1
  ring

/-! ### Characterization of `direct_ft` -/

theorem direct_ft_inner (x X : List ℂ) (k : ℕ) (hk : k < X.length) (Wk : ℂ)
    (m : ℕ) (hm : 1 ≤ m) :
    (List.range m).foldl
      (fun (t : List ℂ × ℂ) n =>
        (t.1.set k (t.1.getD k 0 + x.getD n 0 * t.2), t.2 * Wk)) (X, 1)
    = (X.set k (X.getD k 0 + ∑ n ∈ Finset.range m, x.getD n 0 * Wk ^ n), Wk ^ m) := by
  induction m, hm using Nat.le_induction with
  | base =>
    simp [List.range_succ, Finset.sum_range_one]
  | succ m hm ih =>
    rw [List.range_succ, List.foldl_append, ih]
    simp only [List.foldl_cons, List.foldl_nil]
    rw [Prod.mk.injEq]
    constructor
    · rw [getD_set_self 0 hk, List.set_set, Finset.sum_range_succ, add_assoc]
    · rw [pow_succ]

theorem direct_ft_outer (x : List ℂ) (W : ℂ) (j : ℕ) (hj : j ≤ x.length) :
    ((List.range j).foldl
      (fun (s : List ℂ × ℂ) k =>
        (((List.range x.length).foldl
          (fun (t : List ℂ × ℂ) n =>
            (t.1.set k (t.1.getD k 0 + x.getD n 0 * t.2), t.2 * s.2))
          (s.1, 1)).1,
         s.2 * W))
      (List.replicate x.length 0, 1)).2 = W ^ j ∧
    ((List.range j).foldl
      (fun (s : List ℂ × ℂ) k =>
        (((List.range x.length).foldl
          (fun (t : List ℂ × ℂ) n =>
            (t.1.set k (t.1.getD k 0 + x.getD n 0 * t.2), t.2 * s.2))
          (s.1, 1)).1,
         s.2 * W))
      (List.replicate x.length 0, 1)).1.length = x.length ∧
    ∀ i, i < x.length →
      ((List.range j).foldl
        (fun (s : List ℂ × ℂ) k =>
          (((List.range x.length).foldl
            (fun (t : List ℂ × ℂ) n =>
              (t.1.set k (t.1.getD k 0 + x.getD n 0 * t.2), t.2 * s.2))
            (s.1, 1)).1,
           s.2 * W))
        (List.replicate x.length 0, 1)).1.getD i 0 =
        if i < j then ∑ n ∈ Finset.range x.length, x.getD n 0 * (W ^ i) ^ n else 0 := by
  induction j with
  | zero =>
    refine ⟨by simp, by simp, fun i hi => ?_⟩
    simp [getD_replicate]
  | succ j ih =>
    obtain ⟨ih2, ihlen, ihval⟩ := ih (Nat.le_of_succ_le hj)
    have hjx : j < x.length := hj
    have hx1 : 1 ≤ x.length := Nat.one_le_of_lt hj
    rw [List.range_succ, List.foldl_append]
    simp only [List.foldl_cons, List.foldl_nil]
    rw [direct_ft_inner x _ j (by rw [ihlen]; exact hjx) _ x.length hx1]
    refine ⟨by rw [ih2, pow_succ], by rw [List.length_set, ihlen], fun i hi => ?_⟩
    rcases eq_or_ne i j with rfl | hne
    · rw [getD_set_self 0 (by rw [ihlen]; exact hjx), ihval i hi, if_neg (lt_irrefl i),
        if_pos (Nat.lt_succ_self i), ih2, zero_add]
    · rw [getD_set_ne 0 (Ne.symm hne), ihval i hi]
      rcases Nat.lt_or_ge i j with hlt | hge
      · rw [if_pos hlt, if_pos (Nat.lt_succ_of_lt hlt)]
      · rw [if_neg (Nat.not_lt.mpr hge),
          if_neg (by omega : ¬i < j + 1)]

/-- `direct_ft` computes exactly the specification formula `dft`. -/
theorem direct_ft_eq_dft (x : List ℂ) : direct_ft x = dft x := by
  rcases Nat.eq_zero_or_pos x.length with h0 | hpos
  · rw [List.length_eq_zero.mp h0]; rfl
  · obtain ⟨-, hlen, hval⟩ :=
      direct_ft_outer x
        (Complex.exp (-(2 * (Real.pi : ℂ) * Complex.I) / x.length)) x.length le_rfl
    apply list_eq_of_getD
    · rw [show (direct_ft x).length = x.length from hlen, dft_length]
    · intro i hi
      have hi' : i < x.length := by
        rwa [show (direct_ft x).length = x.length from hlen] at hi
      rw [show (direct_ft x).getD i 0 = _ from hval i hi', if_pos hi', dft_getD x hi']
      exact Finset.sum_congr rfl fun n _ => by rw [base_pow_eq]

/-! ### Trial division: `__factor` -/

theorem find?_range'_least {p : ℕ → Bool} :
    ∀ c s a, (List.range' s c).find? p = some a →
      p a = true ∧ s ≤ a ∧ a < s + c ∧ ∀ i, s ≤ i → i < a → p i = false := by
  intro c
  induction c with
  | zero => intro s a h; simp at h
  | succ c ih =>
    intro s a h
    rw [List.range'_succ] at h
    by_cases hp : p s
    · rw [List.find?_cons_of_pos _ hp] at h
      obtain rfl : s = a := by simpa using h
      exact ⟨hp, le_rfl, by omega, fun i h1 h2 => absurd h1 (by omega)⟩
    · rw [List.find?_cons_of_neg _ hp] at h
      obtain ⟨hpa, h1, h2, h3⟩ := ih (s + 1) a h
      refine ⟨hpa, by omega, by omega, fun i hi1 hi2 => ?_⟩
      rcases eq_or_lt_of_le hi1 with rfl | hlt
      · simpa using hp
      · exact h3 i (by omega) hi2

theorem ceil_sqrt_spec (n : ℕ) :
    n ≤ anyfft.ceil_sqrt n * anyfft.ceil_sqrt n ∧
      ∀ d, d * d ≤ n → d ≤ anyfft.ceil_sqrt n := by
  cases hfind : (List.range (n + 2)).find? (fun r => n ≤ r * r) with
  | none =>
    exfalso
    have hnone := List.find?_eq_none.mp hfind (n + 1) (by
      rw [List.mem_range]
      omega)
    simp only [decide_eq_true_eq] at hnone
    exact hnone (by nlinarith)
  | some c =>
    have hval : anyfft.ceil_sqrt n = c := by
      simp only [anyfft.ceil_sqrt, hfind, Option.getD_some]
    have hpc := List.find?_some hfind
    simp only [decide_eq_true_eq] at hpc
    rw [hval]
    refine ⟨hpc, fun d hd => ?_⟩
    by_contra hc
    push_neg at hc
    have hlt : c * c < d * d := Nat.mul_self_lt_mul_self hc
    omega

theorem factor_min (n : ℕ) (hn : 2 ≤ n) :
    2 ≤ anyfft.__factor n ∧ anyfft.__factor n ∣ n ∧ anyfft.__factor n ≤ n ∧
      ∀ f, 2 ≤ f → f ∣ n → anyfft.__factor n ≤ f := by
  have hrn1 : 1 ≤ anyfft.ceil_sqrt n := by
    rcases Nat.eq_zero_or_pos (anyfft.ceil_sqrt n) with h0 | h0
    · have hle := (ceil_sqrt_spec n).1
      rw [h0] at hle
      omega
    · exact h0
  cases hfind : (List.range' 2 (anyfft.ceil_sqrt n + 1 - 2)).find? (fun i => n % i == 0) with
  | none =>
    have hval : anyfft.__factor n = n := by
      simp only [anyfft.__factor, hfind, Option.getD_none]
    have hnone := List.find?_eq_none.mp hfind
    rw [hval]
    refine ⟨hn, dvd_rfl, le_rfl, fun f hf2 hfd => ?_⟩
    by_contra hc
    push_neg at hc
    obtain ⟨g, hfg⟩ := hfd
    have hg2 : 2 ≤ g := by
      rcases Nat.lt_or_ge g 2 with hglt | hge
      · exfalso
        have hg01 : g = 0 ∨ g = 1 := by omega
        rcases hg01 with rfl | rfl
        · rw [Nat.mul_zero] at hfg; omega
        · rw [Nat.mul_one] at hfg; omega
      · exact hge
    have hdmin : min f g * min f g ≤ n := by
      calc min f g * min f g ≤ f * g := Nat.mul_le_mul (min_le_left f g) (min_le_right f g)
        _ = n := hfg.symm
    have hdrn : min f g ≤ anyfft.ceil_sqrt n := (ceil_sqrt_spec n).2 _ hdmin
    have hddvd : min f g ∣ n := by
      rcases le_total f g with hle | hle
      · rw [min_eq_left hle]; exact ⟨g, hfg⟩
      · rw [min_eq_right hle]; exact ⟨f, by rw [hfg]; ring⟩
    have hd2 : 2 ≤ min f g := le_min hf2 hg2
    have hmem : min f g ∈ List.range' 2 (anyfft.ceil_sqrt n + 1 - 2) := by
      rw [List.mem_range'_1]
      omega
    have hpd := hnone _ hmem
    simp only [beq_iff_eq] at hpd
    exact hpd (Nat.mod_eq_zero_of_dvd hddvd)
  | some i =>
    have hval : anyfft.__factor n = i := by
      simp only [anyfft.__factor, hfind, Option.getD_some]
    obtain ⟨hpi, hi2, hiub, hleast⟩ := find?_range'_least _ _ _ hfind
    simp only [beq_iff_eq] at hpi
    have hidvd : i ∣ n := Nat.dvd_of_mod_eq_zero hpi
    rw [hval]
    refine ⟨hi2, hidvd, Nat.le_of_dvd (by omega) hidvd, fun f hf2 hfd => ?_⟩
    by_contra hc
    push_neg at hc
    have hpf := hleast f hf2 hc
    simp only [beq_eq_false_iff_ne, ne_eq] at hpf
    exact hpf (Nat.mod_eq_zero_of_dvd hfd)

theorem factor_ne_cases (n : ℕ) (h : anyfft.__factor n ≠ n) :
    2 ≤ n ∧ 2 ≤ anyfft.__factor n ∧ anyfft.__factor n ∣ n ∧ anyfft.__factor n < n := by
  have hn2 : 2 ≤ n := by
    rcases n with _ | n
    · exact absurd (by decide) h
    rcases n with _ | n
    · exact absurd (by decide) h
    omega
  obtain ⟨h1, h2, h3, -⟩ := factor_min n hn2
  exact ⟨hn2, h1, h2, lt_of_le_of_ne h3 h⟩

/-! ### Bit reversal -/

theorem bit_reverse_go_acc (r : ℕ) :
    ∀ k l, bit_reverse_go k r l = l * 2 ^ r + bit_reverse_go k r 0 := by
  induction r with
  | zero => intro k l; simp [bit_reverse_go]
  | succ r ih =>
    intro k l
    simp only [bit_reverse_go]
    rw [ih (k / 2) (2 * l + k % 2), ih (k / 2) (2 * 0 + k % 2)]
    ring

theorem bit_reverse_succ (k r : ℕ) :
    bit_reverse k (r + 1) = k % 2 * 2 ^ r + bit_reverse (k / 2) r := by
  unfold bit_reverse
  simp only [bit_reverse_go]
  rw [bit_reverse_go_acc r (k / 2) (2 * 0 + k % 2)]
  ring_nf

theorem bit_reverse_lt (k r : ℕ) : bit_reverse k r < 2 ^ r := by
  induction r generalizing k with
  | zero => simp [bit_reverse, bit_reverse_go]
  | succ r ih =>
    rw [bit_reverse_succ]
    have h1 := ih (k / 2)
    have h2 : k % 2 * 2 ^ r ≤ 2 ^ r := by
      calc k % 2 * 2 ^ r ≤ 1 * 2 ^ r := Nat.mul_le_mul_right _ (by omega)
        _ = 2 ^ r := one_mul _
    have h3 : 2 ^ r + 2 ^ r = 2 ^ (r + 1) := by ring
    omega

theorem bit_reverse_high (r : ℕ) :
    ∀ a b, a < 2 ^ r → b ≤ 1 →
      bit_reverse (b * 2 ^ r + a) (r + 1) = 2 * bit_reverse a r + b := by
  induction r with
  | zero =>
    intro a b ha hb
    obtain rfl : a = 0 := by omega
    rw [bit_reverse_succ]
    simp [bit_reverse, bit_reverse_go]
    omega
  | succ r ih =>
    intro a b ha hb
    rw [bit_reverse_succ]
    have hmod : (b * 2 ^ (r + 1) + a) % 2 = a % 2 := by
      have h2 : b * 2 ^ (r + 1) = 2 * (b * 2 ^ r) := by ring
      rw [h2]; omega
    have hdiv : (b * 2 ^ (r + 1) + a) / 2 = b * 2 ^ r + a / 2 := by
      have h2 : b * 2 ^ (r + 1) = 2 * (b * 2 ^ r) := by ring
      rw [h2]; omega
    have ha2 : a / 2 < 2 ^ r := by
      have : (2 : ℕ) ^ (r + 1) = 2 * 2 ^ r := by ring
      omega
    rw [hmod, hdiv, ih (a / 2) b ha2 hb, bit_reverse_succ]
    ring

theorem bit_reverse_bit_reverse {r k : ℕ} (hk : k < 2 ^ r) :
    bit_reverse (bit_reverse k r) r = k := by
  induction r generalizing k with
  | zero =>
    obtain rfl : k = 0 := by omega
    simp [bit_reverse, bit_reverse_go]
  | succ r ih =>
    rw [bit_reverse_succ k r,
      bit_reverse_high r (bit_reverse (k / 2) r) (k % 2) (bit_reverse_lt _ r) (by omega)]
    have hk2 : k / 2 < 2 ^ r := by
      have : (2 : ℕ) ^ (r + 1) = 2 * 2 ^ r := by ring
      omega
    rw [ih hk2]
    omega

theorem bit_reverse_eq_iff {r a b : ℕ} (ha : a < 2 ^ r) (hb : b < 2 ^ r) :
    bit_reverse a r = b ↔ a = bit_reverse b r := by
  constructor
  · intro h; rw [← h, bit_reverse_bit_reverse ha]
  · intro h; rw [h, bit_reverse_bit_reverse hb]

theorem bitrev_fold (x : List ℂ) (r : ℕ) (hx : x.length = 2 ^ r) (m : ℕ) (hm : m ≤ x.length) :
    ((List.range m).foldl (fun X k => X.set (bit_reverse k r) (x.getD k 0)) x).length
      = x.length ∧
    ∀ i, i < x.length →
      ((List.range m).foldl (fun X k => X.set (bit_reverse k r) (x.getD k 0)) x).getD i 0 =
        if bit_reverse i r < m then x.getD (bit_reverse i r) 0 else x.getD i 0 := by
  induction m with
  | zero =>
    exact ⟨rfl, fun i hi => by simp⟩
  | succ m ih =>
    obtain ⟨ihlen, ihval⟩ := ih (Nat.le_of_succ_le hm)
    rw [List.range_succ, List.foldl_append]
    simp only [List.foldl_cons, List.foldl_nil]
    have hmN : m < x.length := hm
    refine ⟨by rw [List.length_set, ihlen], fun i hi => ?_⟩
    have hir : i < 2 ^ r := hx ▸ hi
    have hmr : m < 2 ^ r := hx ▸ hmN
    rcases eq_or_ne i (bit_reverse m r) with rfl | hne
    · rw [getD_set_self 0 (by rw [ihlen]; exact hi)]
      have hrev : bit_reverse (bit_reverse m r) r = m := bit_reverse_bit_reverse hmr
      rw [hrev, if_pos (Nat.lt_succ_self m)]
    · rw [getD_set_ne 0 (fun hEq => hne hEq.symm), ihval i hi]
      have hner : bit_reverse i r ≠ m := by
        intro hEq
        exact hne ((bit_reverse_eq_iff hir hmr).mp hEq)
      rcases Nat.lt_or_ge (bit_reverse i r) m with hlt | hge
      · rw [if_pos hlt, if_pos (Nat.lt_succ_of_lt hlt)]
      · rw [if_neg (Nat.not_lt.mpr hge), if_neg (by omega)]

theorem foldl_set_length (L : List ℕ) (g : ℕ → ℕ) (w : ℕ → ℂ) :
    ∀ X : List ℂ, (L.foldl (fun X k => X.set (g k) (w k)) X).length = X.length := by
  induction L with
  | nil => intro X; rfl
  | cons a L ih => intro X; rw [List.foldl_cons, ih, List.length_set]

theorem bitrev_permute_length (x : List ℂ) (r : ℕ) :
    (bitrev_permute x r).length = x.length :=
  foldl_set_length (List.range x.length) (fun k => bit_reverse k r) (fun k => x.getD k 0) x

/-! ### Summation reindexing -/

theorem sum_range_add (f : ℕ → ℂ) (c : ℕ) :
    ∀ a, ∑ n ∈ Finset.range (c + a), f n
      = (∑ n ∈ Finset.range c, f n) + ∑ i ∈ Finset.range a, f (c + i) := by
  intro a
  induction a with
  | zero => simp
  | succ a ih =>
    rw [show c + (a + 1) = (c + a) + 1 from by ring, Finset.sum_range_succ, ih,
      Finset.sum_range_succ, add_assoc]

theorem sum_range_grid (a b : ℕ) (f : ℕ → ℂ) :
    ∑ n ∈ Finset.range (a * b), f n
      = ∑ m ∈ Finset.range b, ∑ j ∈ Finset.range a, f (a * m + j) := by
  induction b with
  | zero => simp
  | succ b ih =>
    rw [show a * (b + 1) = a * b + a from by ring, sum_range_add, ih,
      Finset.sum_range_succ]

theorem sum_range_even_odd (f : ℕ → ℂ) (M : ℕ) :
    ∑ n ∈ Finset.range (2 * M), f n
      = (∑ m ∈ Finset.range M, f (2 * m)) + ∑ m ∈ Finset.range M, f (2 * m + 1) := by
  induction M with
  | zero => simp
  | succ M ih =>
    rw [show 2 * (M + 1) = 2 * M + 1 + 1 from by ring, Finset.sum_range_succ,
      Finset.sum_range_succ, ih, Finset.sum_range_succ, Finset.sum_range_succ]
    ring

/-! ### Unit-root periodicity -/

theorem cexp_neg_two_pi_nat_mul (a b : ℕ) :
    Complex.exp (-(2 * (Real.pi : ℂ) * Complex.I * a * b)) = 1 := by
  have h : -(2 * (Real.pi : ℂ) * Complex.I * a * b)
      = ((a * b : ℕ) : ℂ) * -(2 * (Real.pi : ℂ) * Complex.I) := by
    push_cast
    ring
  rw [h, Complex.exp_nat_mul, Complex.exp_neg, Complex.exp_two_pi_mul_I]
  simp

theorem cexp_mod (N2 k m : ℕ) (h2 : 1 ≤ N2) :
    Complex.exp (-(2 * (Real.pi : ℂ) * Complex.I * k * m) / N2) =
      Complex.exp (-(2 * (Real.pi : ℂ) * Complex.I * (k % N2 : ℕ) * m) / N2) := by
  have hN2 : ((N2 : ℕ) : ℂ) ≠ 0 := Nat.cast_ne_zero.mpr (by omega)
  have harg : (-(2 * (Real.pi : ℂ) * Complex.I * k * m) / N2)
      = -(2 * (Real.pi : ℂ) * Complex.I * (k / N2 : ℕ) * m) +
          -(2 * (Real.pi : ℂ) * Complex.I * (k % N2 : ℕ) * m) / N2 := by
    have hk : (k : ℂ) = (N2 : ℂ) * (k / N2 : ℕ) + (k % N2 : ℕ) := by
      have hdm := Nat.div_add_mod k N2
      exact_mod_cast hdm.symm
    rw [hk]
    field_simp
    ring
  rw [harg, Complex.exp_add, cexp_neg_two_pi_nat_mul, one_mul]

/-! ### Sub-slice lengths for the Cooley-Tukey factorization -/

theorem strided_sub_length (x : List ℂ) (N1 N2 j : ℕ) (h : x.length = N1 * N2)
    (h1 : 1 ≤ N1) (hj : j < N1) : (strided x j N1).length = N2 := by
  rw [strided_length, h]
  refine Nat.div_eq_of_lt_le ?_ ?_
  · have e1 : N2 * N1 = N1 * N2 := Nat.mul_comm _ _
    omega
  · have e2 : (N2 + 1) * N1 = N1 * N2 + N1 := by ring
    omega

/-- The Cooley-Tukey index-mapping identity: for `N = N1 · N2`, the `dft`
of `x` at `k` is the twiddle-weighted sum of the `dft`s of the `N1` strided
subsequences, each evaluated at `k mod N2`. -/
theorem dft_cooley_tukey (x : List ℂ) (N1 N2 : ℕ) (h : x.length = N1 * N2)
    (h1 : 1 ≤ N1) (h2 : 1 ≤ N2) {k : ℕ} (hk : k < x.length) :
    (dft x).getD k 0 =
      ∑ j ∈ Finset.range N1,
        Complex.exp (-(2 * (Real.pi : ℂ) * Complex.I * j * k) / x.length) *
          (dft (strided x j N1)).getD (k % N2) 0 := by
  rw [dft_getD x hk, h]
  rw [sum_range_grid N1 N2]
  rw [Finset.sum_comm]
  refine Finset.sum_congr rfl fun j hj => ?_
  have hjN1 : j < N1 := Finset.mem_range.mp hj
  have hslen : (strided x j N1).length = N2 := strided_sub_length x N1 N2 j h h1 hjN1
  have hmodlt : k % N2 < (strided x j N1).length := by
    rw [hslen]; exact Nat.mod_lt _ (by omega)
  rw [dft_getD (strided x j N1) hmodlt, hslen, Finset.mul_sum]
  refine Finset.sum_congr rfl fun m hm => ?_
  have hmN2 : m < N2 := Finset.mem_range.mp hm
  have hmlen : m < (strided x j N1).length := by rw [hslen]; exact hmN2
  rw [strided_getD x j N1 hmlen]
  rw [show N1 * m + j = j + m * N1 from by ring]
  have hN1 : ((N1 : ℕ) : ℂ) ≠ 0 := Nat.cast_ne_zero.mpr (by omega)
  have hN2 : ((N2 : ℕ) : ℂ) ≠ 0 := Nat.cast_ne_zero.mpr (by omega)
  have hA : (-(2 * (Real.pi : ℂ) * Complex.I * k * (j + m * N1 : ℕ)) / ((N1 * N2 : ℕ) : ℂ))
      = -(2 * (Real.pi : ℂ) * Complex.I * j * k) / ((N1 * N2 : ℕ) : ℂ) +
          -(2 * (Real.pi : ℂ) * Complex.I * k * m) / N2 := by
    push_cast
    field_simp
    ring
  rw [hA, Complex.exp_add, cexp_mod N2 k m h2]
  ring

theorem cexp_neg_pi : Complex.exp (-((Real.pi : ℂ) * Complex.I)) = -1 := by
  rw [Complex.exp_neg, Complex.exp_pi_mul_I]
  norm_num

theorem dft_strided_split (x : List ℂ) (o s M : ℕ)
    (hy : (strided x o s).length = 2 * M)
    (hE : (strided x o (2 * s)).length = M)
    (hO : (strided x (o + s) (2 * s)).length = M)
    {u : ℕ} (hu : u < 2 * M) :
    (dft (strided x o s)).getD u 0 =
      (∑ m ∈ Finset.range M, (strided x o (2 * s)).getD m 0 *
          Complex.exp (-(2 * (Real.pi : ℂ) * Complex.I * u * (2 * m : ℕ)) /
            ((2 * M : ℕ) : ℂ))) +
        ∑ m ∈ Finset.range M, (strided x (o + s) (2 * s)).getD m 0 *
          Complex.exp (-(2 * (Real.pi : ℂ) * Complex.I * u * (2 * m + 1 : ℕ)) /
            ((2 * M : ℕ) : ℂ)) := by
  rw [dft_getD _ (by rw [hy]; exact hu), hy, sum_range_even_odd]
  congr 1
  · refine Finset.sum_congr rfl fun m hm => ?_
    have hmM : m < M := Finset.mem_range.mp hm
    rw [strided_getD x o s (by rw [hy]; omega),
      strided_getD x o (2 * s) (by rw [hE]; exact hmM),
      show o + 2 * m * s = o + m * (2 * s) from by ring]
  · refine Finset.sum_congr rfl fun m hm => ?_
    have hmM : m < M := Finset.mem_range.mp hm
    rw [strided_getD x o s (by rw [hy]; omega),
      strided_getD x (o + s) (2 * s) (by rw [hO]; exact hmM),
      show o + (2 * m + 1) * s = o + s + m * (2 * s) from by ring]

/-- The decimation-in-time butterfly identity for `dft` on strided
subsequences: merging the transforms of the even and odd interleaves (stride
`2s`, offsets `o` and `o+s`) yields the transform of the stride-`s`
subsequence at `o`. -/
theorem dft_merge (x : List ℂ) (o s M : ℕ)
    (hy : (strided x o s).length = 2 * M)
    (hE : (strided x o (2 * s)).length = M)
    (hO : (strided x (o + s) (2 * s)).length = M)
    {t : ℕ} (ht : t < M) :
    (dft (strided x o s)).getD t 0 =
      (dft (strided x o (2 * s))).getD t 0 +
        Complex.exp (-(2 * (Real.pi : ℂ) * Complex.I * t) / ((2 * M : ℕ) : ℂ)) *
          (dft (strided x (o + s) (2 * s))).getD t 0 ∧
    (dft (strided x o s)).getD (t + M) 0 =
      (dft (strided x o (2 * s))).getD t 0 -
        Complex.exp (-(2 * (Real.pi : ℂ) * Complex.I * t) / ((2 * M : ℕ) : ℂ)) *
          (dft (strided x (o + s) (2 * s))).getD t 0 := by
  have hMc : ((M : ℕ) : ℂ) ≠ 0 := Nat.cast_ne_zero.mpr (by omega)
  have h2Mc : (((2 * M : ℕ) : ℕ) : ℂ) ≠ 0 := Nat.cast_ne_zero.mpr (by omega)
  constructor
  · rw [dft_strided_split x o s M hy hE hO (by omega : t < 2 * M),
      dft_getD _ (by rw [hE]; exact ht), hE,
      dft_getD _ (by rw [hO]; exact ht), hO, Finset.mul_sum]
    congr 1
    · refine Finset.sum_congr rfl fun m hm => ?_
      have harg : -(2 * (Real.pi : ℂ) * Complex.I * t * ((2 * m : ℕ) : ℂ)) /
            ((2 * M : ℕ) : ℂ)
          = -(2 * (Real.pi : ℂ) * Complex.I * t * m) / ((M : ℕ) : ℂ) := by
        push_cast
        field_simp
        ring
      rw [harg]
    · refine Finset.sum_congr rfl fun m hm => ?_
      have harg : -(2 * (Real.pi : ℂ) * Complex.I * t * ((2 * m + 1 : ℕ) : ℂ)) /
            ((2 * M : ℕ) : ℂ)
          = -(2 * (Real.pi : ℂ) * Complex.I * t) / ((2 * M : ℕ) : ℂ) +
            -(2 * (Real.pi : ℂ) * Complex.I * t * m) / ((M : ℕ) : ℂ) := by
        push_cast
        field_simp
        ring
      rw [harg, Complex.exp_add]
      ring
  · rw [dft_strided_split x o s M hy hE hO (by omega : t + M < 2 * M),
      dft_getD _ (by rw [hE]; exact ht), hE,
      dft_getD _ (by rw [hO]; exact ht), hO, Finset.mul_sum,
      sub_eq_add_neg, ← Finset.sum_neg_distrib]
    congr 1
    · refine Finset.sum_congr rfl fun m hm => ?_
      have harg : -(2 * (Real.pi : ℂ) * Complex.I * ((t + M : ℕ) : ℂ) * ((2 * m : ℕ) : ℂ)) /
            ((2 * M : ℕ) : ℂ)
          = -(2 * (Real.pi : ℂ) * Complex.I * m) +
            -(2 * (Real.pi : ℂ) * Complex.I * t * m) / ((M : ℕ) : ℂ) := by
        push_cast
        field_simp
        ring
      rw [harg, Complex.exp_add, cexp_neg_two_pi_nat m, one_mul]
    · refine Finset.sum_congr rfl fun m hm => ?_
      have harg : -(2 * (Real.pi : ℂ) * Complex.I * ((t + M : ℕ) : ℂ) *
            ((2 * m + 1 : ℕ) : ℂ)) / ((2 * M : ℕ) : ℂ)
          = (-(2 * (Real.pi : ℂ) * Complex.I * m) + -((Real.pi : ℂ) * Complex.I)) +
            (-(2 * (Real.pi : ℂ) * Complex.I * t) / ((2 * M : ℕ) : ℂ) +
              -(2 * (Real.pi : ℂ) * Complex.I * t * m) / ((M : ℕ) : ℂ)) := by
        push_cast
        field_simp
        ring
      rw [harg, Complex.exp_add, Complex.exp_add, Complex.exp_add,
        cexp_neg_two_pi_nat m, cexp_neg_pi, one_mul]
      ring

/-! ### Correctness of the radix-2 recursive FFT -/

theorem strided_zero_one (x : List ℂ) : strided x 0 1 = x := by
  apply list_eq_of_getD
  · rw [strided_length]; omega
  · intro i hi
    rw [strided_getD x 0 1 hi]
    simp

theorem dft_singleton (a : ℂ) : dft [a] = [a] := by
  simp [dft, List.range_succ, Finset.sum_range_one]

theorem recursive_fft_eq_dft : ∀ (m : ℕ) (x : List ℂ), x.length = 2 ^ m →
    recursive_fft x = dft x := by
  intro m
  induction m with
  | zero =>
    intro x hx
    rw [pow_zero] at hx
    obtain ⟨a, rfl⟩ := List.length_eq_one.mp hx
    rw [recursive_fft, dif_pos (by simp), dft_singleton]
  | succ m ih =>
    intro x hx
    have h2m : (2 : ℕ) ^ (m + 1) = 2 * 2 ^ m := by ring
    have hpow1 : 1 ≤ 2 ^ m := Nat.one_le_two_pow
    have hN2 : ¬ x.length ≤ 1 := by rw [hx]; omega
    have hElen : (strided x 0 2).length = 2 ^ m := by
      rw [strided_length, hx]; omega
    have hOlen : (strided x 1 2).length = 2 ^ m := by
      rw [strided_length, hx]; omega
    have hE := ih (strided x 0 2) hElen
    have hO := ih (strided x 1 2) hOlen
    rw [recursive_fft]
    simp only [dif_neg hN2]
    rw [hE, hO]
    have hdftE : (dft (strided x 0 2)).length = 2 ^ m := by rw [dft_length, hElen]
    have hdftO : (dft (strided x 1 2)).length = 2 ^ m := by rw [dft_length, hOlen]
    have hdiv : x.length / 2 = 2 ^ m := by rw [hx]; omega
    have hy' : (strided x 0 1).length = 2 * 2 ^ m := by
      rw [strided_length]; omega
    have hE' : (strided x 0 (2 * 1)).length = 2 ^ m := by simpa using hElen
    have hO' : (strided x (0 + 1) (2 * 1)).length = 2 ^ m := by simpa using hOlen
    have h2Mx : 2 * 2 ^ m = x.length := by omega
    have hWXo : (List.zipWith (fun Wk Xok => Wk * Xok)
        ((List.range (x.length / 2)).map (fun (k : ℕ) =>
          Complex.exp (-(2 * (Real.pi : ℂ) * Complex.I * k) / x.length)))
        (dft (strided x 1 2))).length = 2 ^ m := by
      rw [List.length_zipWith, List.length_map, List.length_range, hdiv, hdftO, min_self]
    have hzp : (List.zipWith (fun Xek WXok => Xek + WXok) (dft (strided x 0 2))
        (List.zipWith (fun Wk Xok => Wk * Xok)
          ((List.range (x.length / 2)).map (fun (k : ℕ) =>
            Complex.exp (-(2 * (Real.pi : ℂ) * Complex.I * k) / x.length)))
          (dft (strided x 1 2)))).length = 2 ^ m := by
      rw [List.length_zipWith, hdftE, hWXo, min_self]
    have hzm : (List.zipWith (fun Xek WXok => Xek - WXok) (dft (strided x 0 2))
        (List.zipWith (fun Wk Xok => Wk * Xok)
          ((List.range (x.length / 2)).map (fun (k : ℕ) =>
            Complex.exp (-(2 * (Real.pi : ℂ) * Complex.I * k) / x.length)))
          (dft (strided x 1 2)))).length = 2 ^ m := by
      rw [List.length_zipWith, hdftE, hWXo, min_self]
    apply list_eq_of_getD
    · rw [List.length_append, hzp, hzm, dft_length, hx]
      omega
    · intro i hi
      rw [List.length_append, hzp, hzm] at hi
      rcases Nat.lt_or_ge i (2 ^ m) with hilt | hige
      · rw [getD_append_left 0 (by rw [hzp]; exact hilt),
          getD_zipWith _ (by rw [hdftE]; exact hilt) (by rw [hWXo]; exact hilt),
          getD_zipWith _
            (by rw [List.length_map, List.length_range, hdiv]; exact hilt)
            (by rw [hdftO]; exact hilt),
          getD_map_range 0 _ (by rw [hdiv]; exact hilt)]
        obtain ⟨hplus, -⟩ := dft_merge x 0 1 (2 ^ m) hy' hE' hO' hilt
        rw [strided_zero_one, h2Mx] at hplus
        simp only [mul_one, zero_add] at hplus
        rw [← hplus]
      · rw [getD_append_right 0 (by rw [hzp]; exact hige), hzp,
          getD_zipWith _ (by rw [hdftE]; omega) (by rw [hWXo]; omega),
          getD_zipWith _
            (by rw [List.length_map, List.length_range, hdiv]; omega)
            (by rw [hdftO]; omega),
          getD_map_range 0 _ (by rw [hdiv]; omega)]
        obtain ⟨-, hminus⟩ := dft_merge x 0 1 (2 ^ m) hy' hE' hO'
          (show i - 2 ^ m < 2 ^ m by omega)
        rw [strided_zero_one, h2Mx] at hminus
        simp only [mul_one, zero_add] at hminus
        rw [show i - 2 ^ m + 2 ^ m = i from by omega] at hminus
        rw [← hminus]

/-! ### Correctness of the mixed-radix FFT (`anyfft.py`) -/

theorem anyfft_inner (Xj X : List ℂ) (N2 : ℕ) (Wj : ℂ) (m : ℕ) (hm : m ≤ X.length) :
    ((List.range m).foldl
      (fun (t : List ℂ × ℂ) k =>
        (t.1.set k (t.1.getD k 0 + Xj.getD (k % N2) 0 * t.2), t.2 * Wj)) (X, 1)).2
      = Wj ^ m ∧
    ((List.range m).foldl
      (fun (t : List ℂ × ℂ) k =>
        (t.1.set k (t.1.getD k 0 + Xj.getD (k % N2) 0 * t.2), t.2 * Wj)) (X, 1)).1.length
      = X.length ∧
    ∀ i, i < X.length →
      ((List.range m).foldl
        (fun (t : List ℂ × ℂ) k =>
          (t.1.set k (t.1.getD k 0 + Xj.getD (k % N2) 0 * t.2), t.2 * Wj)) (X, 1)).1.getD i 0
        = if i < m then X.getD i 0 + Xj.getD (i % N2) 0 * Wj ^ i else X.getD i 0 := by
  induction m with
  | zero =>
    exact ⟨by simp, rfl, fun i hi => by simp⟩
  | succ m ih =>
    obtain ⟨ih2, ihlen, ihval⟩ := ih (Nat.le_of_succ_le hm)
    have hmX : m < X.length := hm
    rw [List.range_succ, List.foldl_append]
    simp only [List.foldl_cons, List.foldl_nil]
    refine ⟨by rw [ih2, pow_succ], by rw [List.length_set, ihlen], fun i hi => ?_⟩
    rcases eq_or_ne i m with rfl | hne
    · rw [getD_set_self 0 (by rw [ihlen]; exact hmX), ihval i hi, if_neg (lt_irrefl i),
        if_pos (Nat.lt_succ_self i), ih2]
    · rw [getD_set_ne 0 (Ne.symm hne), ihval i hi]
      rcases Nat.lt_or_ge i m with hlt | hge
      · rw [if_pos hlt, if_pos (Nat.lt_succ_of_lt hlt)]
      · rw [if_neg (Nat.not_lt.mpr hge), if_neg (by omega : ¬i < m + 1)]

theorem anyfft_outer (L : List (List ℂ)) (N N2 : ℕ) (W : ℂ) (j0 : ℕ) :
    ((List.range j0).foldl
      (fun (s : List ℂ × ℂ) j =>
        (((List.range N).foldl
          (fun (t : List ℂ × ℂ) k =>
            (t.1.set k (t.1.getD k 0 + (L.getD j []).getD (k % N2) 0 * t.2), t.2 * s.2))
          (s.1, 1)).1,
         s.2 * W))
      (List.replicate N 0, 1)).2 = W ^ j0 ∧
    ((List.range j0).foldl
      (fun (s : List ℂ × ℂ) j =>
        (((List.range N).foldl
          (fun (t : List ℂ × ℂ) k =>
            (t.1.set k (t.1.getD k 0 + (L.getD j []).getD (k % N2) 0 * t.2), t.2 * s.2))
          (s.1, 1)).1,
         s.2 * W))
      (List.replicate N 0, 1)).1.length = N ∧
    ∀ i, i < N →
      ((List.range j0).foldl
        (fun (s : List ℂ × ℂ) j =>
          (((List.range N).foldl
            (fun (t : List ℂ × ℂ) k =>
              (t.1.set k (t.1.getD k 0 + (L.getD j []).getD (k % N2) 0 * t.2), t.2 * s.2))
            (s.1, 1)).1,
           s.2 * W))
        (List.replicate N 0, 1)).1.getD i 0
        = ∑ j ∈ Finset.range j0, (L.getD j []).getD (i % N2) 0 * (W ^ j) ^ i := by
  induction j0 with
  | zero =>
    exact ⟨by simp, by simp, fun i hi => by simp [getD_replicate]⟩
  | succ j0 ih =>
    obtain ⟨ih2, ihlen, ihval⟩ := ih
    rw [List.range_succ, List.foldl_append]
    simp only [List.foldl_cons, List.foldl_nil]
    set F := (List.range j0).foldl
      (fun (s : List ℂ × ℂ) j =>
        (((List.range N).foldl
          (fun (t : List ℂ × ℂ) k =>
            (t.1.set k (t.1.getD k 0 + (L.getD j []).getD (k % N2) 0 * t.2), t.2 * s.2))
          (s.1, 1)).1,
         s.2 * W))
      (List.replicate N 0, 1) with hFdef
    obtain ⟨h2, hlen, hval⟩ := anyfft_inner (L.getD j0 []) F.1 N2 F.2 N (le_of_eq ihlen.symm)
    refine ⟨by rw [ih2, pow_succ], by rw [hlen, ihlen], fun i hi => ?_⟩
    rw [hval i (by rw [ihlen]; exact hi), if_pos hi]
    rw [ihval i hi, Finset.sum_range_succ, ih2]

theorem anyfft_recursive_fft_eq_dft (x : List ℂ) : anyfft.recursive_fft x = dft x := by
  suffices main : ∀ (n : ℕ) (y : List ℂ), y.length = n → anyfft.recursive_fft y = dft y by
    exact main x.length x rfl
  intro n
  induction n using Nat.strong_induction_on with
  | _ n ihn =>
    intro x hx
    by_cases hp : anyfft.__factor x.length = x.length
    · rw [anyfft.recursive_fft, dif_pos hp, direct_ft_eq_dft]
    · obtain ⟨hN2le, hF2, hFdvd, hFlt⟩ := factor_ne_cases x.length hp
      have hN0 : 0 < x.length := by omega
      have hN2pos : 1 ≤ x.length / anyfft.__factor x.length := by
        rw [Nat.one_le_div_iff (by omega)]
        omega
      have hfact : x.length
          = anyfft.__factor x.length * (x.length / anyfft.__factor x.length) :=
        (Nat.mul_div_cancel' hFdvd).symm
      have hN2lt : x.length / anyfft.__factor x.length < x.length :=
        Nat.div_lt_self hN0 (by omega)
      rw [anyfft.recursive_fft]
      simp only [dif_neg hp]
      obtain ⟨-, hlen, hval⟩ := anyfft_outer
        ((List.range (anyfft.__factor x.length)).map
          (fun j' => anyfft.recursive_fft (strided x j' (anyfft.__factor x.length))))
        x.length (x.length / anyfft.__factor x.length)
        (Complex.exp (-(2 * (Real.pi : ℂ) * Complex.I) / x.length))
        (anyfft.__factor x.length)
      apply list_eq_of_getD
      · rw [hlen, dft_length]
      · intro i hi
        rw [hlen] at hi
        rw [hval i hi,
          dft_cooley_tukey x (anyfft.__factor x.length)
            (x.length / anyfft.__factor x.length) hfact (by omega) hN2pos hi]
        refine Finset.sum_congr rfl fun j hj => ?_
        have hjlt : j < anyfft.__factor x.length := Finset.mem_range.mp hj
        have hsublen : (strided x j (anyfft.__factor x.length)).length
            = x.length / anyfft.__factor x.length :=
          strided_sub_length x _ _ j hfact (by omega) hjlt
        have hsubn : (strided x j (anyfft.__factor x.length)).length < n := by
          rw [hsublen]
          omega
        rw [getD_map_range ([] : List ℂ) _ hjlt,
          ihn _ hsubn (strided x j (anyfft.__factor x.length)) rfl,
          base_pow_eq]
        ring

/-! ### The in-place butterfly passes of `iterative_fft` -/

theorem butterfly_fold (W : ℂ) (l step : ℕ) (X : List ℂ) (hs : 1 ≤ step)
    (hb : l + 2 * step ≤ X.length) (m : ℕ) (hm : m ≤ step) :
    ((List.range m).foldl (butterfly_step W l step) (X, 1)).2 = W ^ m ∧
    ((List.range m).foldl (butterfly_step W l step) (X, 1)).1.length = X.length ∧
    ∀ i, i < X.length →
      ((List.range m).foldl (butterfly_step W l step) (X, 1)).1.getD i 0 =
        if l ≤ i ∧ i < l + m then
          X.getD i 0 + W ^ (i - l) * X.getD (i + step) 0
        else if l + step ≤ i ∧ i < l + step + m then
          X.getD (i - step) 0 - W ^ (i - l - step) * X.getD i 0
        else X.getD i 0 := by
  induction m with
  | zero =>
    refine ⟨by simp, rfl, fun i hi => ?_⟩
    simp only [List.range_zero, List.foldl_nil]
    rw [if_neg (by omega), if_neg (by omega)]
  | succ m ih =>
    obtain ⟨ih2, ihlen, ihval⟩ := ih (by omega)
    rw [List.range_succ, List.foldl_append]
    simp only [List.foldl_cons, List.foldl_nil]
    set F := (List.range m).foldl (butterfly_step W l step) (X, 1) with hFdef
    simp only [butterfly_step]
    have hpq : l + m ≠ l + m + step := by omega
    have hpX : l + m < X.length := by omega
    have hqX : l + m + step < X.length := by omega
    have hFp : F.1.getD (l + m) 0 = X.getD (l + m) 0 := by
      rw [ihval _ hpX, if_neg (by omega), if_neg (by omega)]
    have hFq : F.1.getD (l + m + step) 0 = X.getD (l + m + step) 0 := by
      rw [ihval _ hqX, if_neg (by omega), if_neg (by omega)]
    refine ⟨by rw [ih2, pow_succ], by rw [List.length_set, List.length_set, ihlen], ?_⟩
    intro i hi
    by_cases hip : i = l + m
    · subst hip
      rw [getD_set_self 0 (by rw [List.length_set, ihlen]; exact hpX),
        getD_set_ne 0 hpq.symm, getD_set_self 0 (by rw [ihlen]; exact hqX),
        hFp, hFq, ih2, if_pos ⟨by omega, by omega⟩,
        show l + m - l = m from by omega]
      ring
    · by_cases hiq : i = l + m + step
      · subst hiq
        rw [getD_set_ne 0 hpq, getD_set_self 0 (by rw [ihlen]; exact hqX),
          hFp, hFq, ih2, if_neg (by omega), if_pos ⟨by omega, by omega⟩,
          show l + m + step - l - step = m from by omega,
          show l + m + step - step = l + m from by omega]
      · rw [getD_set_ne 0 (fun h => hip h.symm),
          getD_set_ne 0 (fun h => hiq h.symm), ihval i hi]
        by_cases c1 : l ≤ i ∧ i < l + m
        · rw [if_pos c1, if_pos ⟨c1.1, by omega⟩]
        · rw [if_neg c1]
          by_cases c2 : l + step ≤ i ∧ i < l + step + m
          · rw [if_pos c2, if_neg (by omega), if_pos ⟨c2.1, by omega⟩]
          · rw [if_neg c2, if_neg (by omega), if_neg (by omega)]

theorem butterfly_block_spec (W : ℂ) (l step : ℕ) (X : List ℂ) (hs : 1 ≤ step)
    (hb : l + 2 * step ≤ X.length) :
    (butterfly_block W l step X).length = X.length ∧
    ∀ i, i < X.length →
      (butterfly_block W l step X).getD i 0 =
        if l ≤ i ∧ i < l + step then
          X.getD i 0 + W ^ (i - l) * X.getD (i + step) 0
        else if l + step ≤ i ∧ i < l + step + step then
          X.getD (i - step) 0 - W ^ (i - l - step) * X.getD i 0
        else X.getD i 0 := by
  obtain ⟨-, hlen, hval⟩ := butterfly_fold W l step X hs hb step le_rfl
  exact ⟨hlen, hval⟩

theorem merge_fold (W : ℂ) (X : List ℂ) (N step : ℕ) (hN : X.length = N) (hs : 1 ≤ step)
    (hdvd : 2 * step ∣ N) (b0 : ℕ) (hb0 : b0 ≤ N / (2 * step)) :
    ((List.range b0).foldl (fun Y i => butterfly_block W (i * (2 * step)) step Y) X).length
      = N ∧
    ∀ i, i < N →
      ((List.range b0).foldl
        (fun Y i => butterfly_block W (i * (2 * step)) step Y) X).getD i 0 =
        if i < b0 * (2 * step) then
          (if i % (2 * step) < step then
            X.getD i 0 + W ^ (i % (2 * step)) * X.getD (i + step) 0
          else X.getD (i - step) 0 - W ^ (i % (2 * step) - step) * X.getD i 0)
        else X.getD i 0 := by
  induction b0 with
  | zero => exact ⟨hN, fun i hi => by simp⟩
  | succ b0 ih =>
    obtain ⟨ihlen, ihval⟩ := ih (by omega)
    rw [List.range_succ, List.foldl_append]
    simp only [List.foldl_cons, List.foldl_nil]
    set Y := (List.range b0).foldl (fun Y i => butterfly_block W (i * (2 * step)) step Y) X
      with hY
    have hexp : (b0 + 1) * (2 * step) = b0 * (2 * step) + 2 * step := by ring
    have hblk : b0 * (2 * step) + 2 * step ≤ N := by
      have h2 : (b0 + 1) * (2 * step) ≤ N / (2 * step) * (2 * step) :=
        Nat.mul_le_mul_right _ hb0
      have h3 : N / (2 * step) * (2 * step) = N := Nat.div_mul_cancel hdvd
      omega
    obtain ⟨blen, bval⟩ := butterfly_block_spec W (b0 * (2 * step)) step Y hs
      (by rw [ihlen]; exact hblk)
    refine ⟨by rw [blen, ihlen], fun i hi => ?_⟩
    rw [bval i (by rw [ihlen]; exact hi)]
    by_cases c1 : b0 * (2 * step) ≤ i ∧ i < b0 * (2 * step) + step
    · rw [if_pos c1]
      have hYi : Y.getD i 0 = X.getD i 0 := by
        rw [ihval i hi, if_neg (by omega)]
      have hYis : Y.getD (i + step) 0 = X.getD (i + step) 0 := by
        rw [ihval (i + step) (by omega), if_neg (by omega)]
      have hmod : i % (2 * step) = i - b0 * (2 * step) := by
        have hcomm : 2 * step * b0 = b0 * (2 * step) := by ring
        conv_lhs => rw [show i = 2 * step * b0 + (i - b0 * (2 * step)) from by omega]
        rw [Nat.mul_add_mod, Nat.mod_eq_of_lt (by omega)]
      rw [hYi, hYis, if_pos (show i < (b0 + 1) * (2 * step) from by omega), hmod,
        if_pos (by omega)]
    · by_cases c2 : b0 * (2 * step) + step ≤ i ∧ i < b0 * (2 * step) + step + step
      · rw [if_neg c1, if_pos c2]
        have hYi : Y.getD i 0 = X.getD i 0 := by
          rw [ihval i hi, if_neg (by omega)]
        have hYms : Y.getD (i - step) 0 = X.getD (i - step) 0 := by
          rw [ihval (i - step) (by omega), if_neg (by omega)]
        have hmod : i % (2 * step) = i - b0 * (2 * step) := by
          have hcomm : 2 * step * b0 = b0 * (2 * step) := by ring
          conv_lhs => rw [show i = 2 * step * b0 + (i - b0 * (2 * step)) from by omega]
          rw [Nat.mul_add_mod, Nat.mod_eq_of_lt (by omega)]
        rw [hYi, hYms, if_pos (show i < (b0 + 1) * (2 * step) from by omega), hmod,
          if_neg (by omega)]
      · rw [if_neg c1, if_neg c2, ihval i hi]
        by_cases c3 : i < b0 * (2 * step)
        · rw [if_pos c3, if_pos (show i < (b0 + 1) * (2 * step) from by omega)]
        · rw [if_neg c3, if_neg (show ¬i < (b0 + 1) * (2 * step) from by omega)]

theorem merge_pass_spec (X : List ℂ) (N step : ℕ) (hN : X.length = N) (hs : 1 ≤ step)
    (hdvd : 2 * step ∣ N) :
    (fft_merge_pass N step X).length = N ∧
    ∀ i, i < N →
      (fft_merge_pass N step X).getD i 0 =
        if i % (2 * step) < step then
          X.getD i 0 + Complex.exp (-((Real.pi : ℂ) * Complex.I) / step) ^ (i % (2 * step)) *
            X.getD (i + step) 0
        else
          X.getD (i - step) 0 - Complex.exp (-((Real.pi : ℂ) * Complex.I) / step) ^
            (i % (2 * step) - step) * X.getD i 0 := by
  have hcount : (N + 2 * step - 1) / (2 * step) = N / (2 * step) := by
    obtain ⟨c, hc⟩ := hdvd
    subst hc
    rw [show 2 * step * c + 2 * step - 1 = (2 * step - 1) + 2 * step * c from by omega,
      Nat.add_mul_div_left _ _ (by omega : 0 < 2 * step), Nat.div_eq_of_lt (by omega),
      Nat.mul_div_cancel_left c (by omega : 0 < 2 * step), Nat.zero_add]
  obtain ⟨hlen, hval⟩ := merge_fold
    (Complex.exp (-((Real.pi : ℂ) * Complex.I) / step)) X N step hN hs hdvd
    (N / (2 * step)) le_rfl
  constructor
  · unfold fft_merge_pass
    rw [hcount]
    exact hlen
  · intro i hi
    unfold fft_merge_pass
    rw [hcount, hval i hi,
      if_pos (show i < N / (2 * step) * (2 * step) from by
        rw [Nat.div_mul_cancel hdvd]; exact hi)]

theorem iter_twiddle (s t : ℕ) (hs : 1 ≤ s) :
    Complex.exp (-((Real.pi : ℂ) * Complex.I) / s) ^ t
      = Complex.exp (-(2 * (Real.pi : ℂ) * Complex.I * t) / ((2 * s : ℕ) : ℂ)) := by
  rw [cexp_pow]
  congr 1
  have hsc : ((s : ℕ) : ℂ) ≠ 0 := Nat.cast_ne_zero.mpr (by omega)
  push_cast
  field_simp
  ring

theorem strided_full (x : List ℂ) (o : ℕ) (ho : o < x.length) :
    strided x o x.length = [x.getD o 0] := by
  have hlen : (strided x o x.length).length = 1 := by
    rw [strided_length]
    refine Nat.div_eq_of_lt_le (by omega) (by omega)
  apply list_eq_of_getD
  · rw [hlen]; rfl
  · intro i hi
    rw [strided_getD x o _ hi]
    obtain rfl : i = 0 := by rw [hlen] at hi; omega
    simp

theorem iter_pass_invariant (x : List ℂ) (r : ℕ) (hx : x.length = 2 ^ r) :
    ∀ p, p ≤ r →
      ((List.range p).foldl
        (fun (s : List ℂ × ℕ) _ => (fft_merge_pass x.length s.2 s.1, 2 * s.2))
        (bitrev_permute x r, 1)).2 = 2 ^ p ∧
      ((List.range p).foldl
        (fun (s : List ℂ × ℕ) _ => (fft_merge_pass x.length s.2 s.1, 2 * s.2))
        (bitrev_permute x r, 1)).1.length = x.length ∧
      ∀ b t, b < 2 ^ (r - p) → t < 2 ^ p →
        ((List.range p).foldl
          (fun (s : List ℂ × ℕ) _ => (fft_merge_pass x.length s.2 s.1, 2 * s.2))
          (bitrev_permute x r, 1)).1.getD (b * 2 ^ p + t) 0 =
          (dft (strided x (bit_reverse b (r - p)) (2 ^ (r - p)))).getD t 0 := by
  intro p
  induction p with
  | zero =>
    intro _
    refine ⟨rfl, bitrev_permute_length x r, fun b t hb ht => ?_⟩
    obtain rfl : t = 0 := by rw [pow_zero] at ht; omega
    simp only [List.range_zero, List.foldl_nil]
    rw [show b * 2 ^ 0 + 0 = b from by simp]
    simp only [Nat.sub_zero]
    simp only [Nat.sub_zero] at hb
    obtain ⟨-, hval⟩ := bitrev_fold x r hx x.length le_rfl
    have hbN : b < x.length := by rw [hx]; exact hb
    have h1 : (bitrev_permute x r).getD b 0 = x.getD (bit_reverse b r) 0 := by
      unfold bitrev_permute
      rw [hval b hbN, if_pos (by rw [hx]; exact bit_reverse_lt b r)]
    rw [h1, ← hx,
      strided_full x (bit_reverse b r) (by rw [hx]; exact bit_reverse_lt b r),
      dft_singleton]
    rfl
  | succ p ih =>
    intro hp
    obtain ⟨ih2, ihlen, ihval⟩ := ih (by omega)
    rw [List.range_succ, List.foldl_append]
    simp only [List.foldl_cons, List.foldl_nil]
    set F := (List.range p).foldl
      (fun (s : List ℂ × ℕ) _ => (fft_merge_pass x.length s.2 s.1, 2 * s.2))
      (bitrev_permute x r, 1) with hF
    rw [ih2]
    have h2p1 : (2:ℕ) ^ (p + 1) = 2 * 2 ^ p := by rw [pow_succ]; ring
    have hdvd : 2 * 2 ^ p ∣ x.length := by
      rw [hx, ← h2p1]
      exact pow_dvd_pow 2 (by omega)
    obtain ⟨mlen, mval⟩ := merge_pass_spec F.1 x.length (2 ^ p) ihlen
      Nat.one_le_two_pow hdvd
    refine ⟨by rw [pow_succ]; ring, mlen, ?_⟩
    intro b t hb ht
    obtain ⟨q, hq⟩ : ∃ q, r - p = q + 1 := ⟨r - p - 1, by omega⟩
    have hrp1 : r - (p + 1) = q := by omega
    have hpow : (2:ℕ) ^ (r - p) = 2 * 2 ^ q := by
      rw [hq, pow_succ]; ring
    have hb' : b < 2 ^ q := by rwa [hrp1] at hb
    have hbig : b * 2 ^ (p + 1) = 2 * b * 2 ^ p := by rw [h2p1]; ring
    have hiN : b * 2 ^ (p + 1) + t < x.length := by
      have h2 : (b + 1) * 2 ^ (p + 1) ≤ 2 ^ q * 2 ^ (p + 1) :=
        Nat.mul_le_mul_right _ hb'
      have h3 : (b + 1) * 2 ^ (p + 1) = b * 2 ^ (p + 1) + 2 ^ (p + 1) := by ring
      have h4 : 2 ^ q * 2 ^ (p + 1) = x.length := by
        rw [hx, ← pow_add]; congr 1; omega
      omega
    rw [mval _ hiN]
    have hmod : (b * 2 ^ (p + 1) + t) % (2 * 2 ^ p) = t := by
      rw [← h2p1]
      have hcomm : 2 ^ (p + 1) * b = b * 2 ^ (p + 1) := by ring
      conv_lhs => rw [show b * 2 ^ (p + 1) + t = 2 ^ (p + 1) * b + t from by omega]
      rw [Nat.mul_add_mod, Nat.mod_eq_of_lt (by rw [h2p1] at ht ⊢; exact ht)]
    rw [hmod, hrp1]
    have hb2 : 2 * b < 2 ^ (r - p) := by omega
    have hb21 : 2 * b + 1 < 2 ^ (r - p) := by omega
    have hrev0 : bit_reverse (2 * b) (r - p) = bit_reverse b q := by
      rw [hq, bit_reverse_succ, Nat.mul_mod_right,
        Nat.mul_div_cancel_left b (by omega : 0 < 2)]
      simp
    have hrev1 : bit_reverse (2 * b + 1) (r - p) = 2 ^ q + bit_reverse b q := by
      rw [hq, bit_reverse_succ, show (2 * b + 1) % 2 = 1 from by omega,
        show (2 * b + 1) / 2 = b from by omega, one_mul]
    have hs1 : 1 ≤ (2:ℕ) ^ q := Nat.one_le_two_pow
    have hrevlt : bit_reverse b q < 2 ^ q := bit_reverse_lt _ _
    have hNfull2 : x.length = 2 ^ (r - p) * 2 ^ p := by
      rw [hx, ← pow_add]; congr 1; omega
    have hy : (strided x (bit_reverse b q) (2 ^ q)).length = 2 * 2 ^ p := by
      rw [strided_sub_length x (2 ^ q) (2 ^ (p + 1)) _
        (by rw [hx, ← pow_add]; congr 1; omega) hs1 hrevlt]
      exact h2p1
    have hE : (strided x (bit_reverse b q) (2 * 2 ^ q)).length = 2 ^ p := by
      rw [← hpow]
      exact strided_sub_length x (2 ^ (r - p)) (2 ^ p) _ hNfull2
        Nat.one_le_two_pow (by omega)
    have hO : (strided x (bit_reverse b q + 2 ^ q) (2 * 2 ^ q)).length = 2 ^ p := by
      rw [← hpow]
      exact strided_sub_length x (2 ^ (r - p)) (2 ^ p) _ hNfull2
        Nat.one_le_two_pow (by omega)
    rcases Nat.lt_or_ge t (2 ^ p) with htlt | htge
    · rw [if_pos htlt]
      obtain ⟨kplus, -⟩ := dft_merge x (bit_reverse b q) (2 ^ q) (2 ^ p) hy hE hO htlt
      rw [show b * 2 ^ (p + 1) + t = 2 * b * 2 ^ p + t from by omega,
        ihval (2 * b) t hb2 htlt,
        show 2 * b * 2 ^ p + t + 2 ^ p = (2 * b + 1) * 2 ^ p + t from by ring_nf,
        ihval (2 * b + 1) t hb21 htlt,
        iter_twiddle (2 ^ p) t Nat.one_le_two_pow,
        hrev0, hrev1, kplus, hpow, Nat.add_comm (2 ^ q) (bit_reverse b q)]
    · rw [if_neg (by omega)]
      have ht' : t - 2 ^ p < 2 ^ p := by rw [h2p1] at ht; omega
      obtain ⟨-, kminus⟩ := dft_merge x (bit_reverse b q) (2 ^ q) (2 ^ p) hy hE hO ht'
      rw [show t - 2 ^ p + 2 ^ p = t from by omega] at kminus
      rw [show b * 2 ^ (p + 1) + t - 2 ^ p = 2 * b * 2 ^ p + (t - 2 ^ p) from by omega,
        ihval (2 * b) (t - 2 ^ p) hb2 ht',
        show b * 2 ^ (p + 1) + t = (2 * b + 1) * 2 ^ p + (t - 2 ^ p) from by
          have hr : (2 * b + 1) * 2 ^ p = 2 * b * 2 ^ p + 2 ^ p := by ring
          omega,
        ihval (2 * b + 1) (t - 2 ^ p) hb21 ht',
        iter_twiddle (2 ^ p) (t - 2 ^ p) Nat.one_le_two_pow,
        hrev0, hrev1, kminus, hpow, Nat.add_comm (2 ^ q) (bit_reverse b q)]

theorem iterative_fft_eq_dft (x : List ℂ) (m : ℕ) (hx : x.length = 2 ^ m) :
    iterative_fft x = dft x := by
  have hlog : Nat.log2 x.length = m := by rw [hx]; exact Nat.log2_two_pow
  obtain ⟨-, hlen, hval⟩ := iter_pass_invariant x m hx m le_rfl
  unfold iterative_fft
  rw [hlog]
  apply list_eq_of_getD
  · rw [hlen, dft_length]
  · intro i hi
    rw [hlen] at hi
    have hkey := hval 0 i (by simp) (by rw [← hx]; exact hi)
    simp only [Nat.sub_self] at hkey
    rw [show (0 : ℕ) * 2 ^ m + i = i from by omega,
      show bit_reverse 0 0 = 0 from rfl, pow_zero, strided_zero_one] at hkey
    exact hkey

/-! ### Length preservation -/

theorem butterfly_block_length (W : ℂ) (l step : ℕ) (X : List ℂ) :
    (butterfly_block W l step X).length = X.length := by
  unfold butterfly_block
  suffices h : ∀ (L : List ℕ) (st : List ℂ × ℂ),
      ((L.foldl (butterfly_step W l step) st).1).length = st.1.length by
    exact h _ _
  intro L
  induction L with
  | nil => intro st; rfl
  | cons a L ih =>
    intro st
    rw [List.foldl_cons, ih]
    simp [butterfly_step]

theorem fft_merge_pass_length (N step : ℕ) (X : List ℂ) :
    (fft_merge_pass N step X).length = X.length := by
  unfold fft_merge_pass
  suffices h : ∀ (L : List ℕ) (Y : List ℂ),
      (L.foldl (fun Y i =>
        butterfly_block (Complex.exp (-((Real.pi : ℂ) * Complex.I) / step))
          (i * (2 * step)) step Y) Y).length = Y.length by
    exact h _ _
  intro L
  induction L with
  | nil => intro Y; rfl
  | cons a L ih =>
    intro Y
    rw [List.foldl_cons, ih, butterfly_block_length]

theorem iterative_fft_length (x : List ℂ) : (iterative_fft x).length = x.length := by
  unfold iterative_fft
  suffices h : ∀ (L : List ℕ) (st : List ℂ × ℕ),
      ((L.foldl (fun (s : List ℂ × ℕ) _ => (fft_merge_pass x.length s.2 s.1, 2 * s.2))
        st).1).length = st.1.length by
    rw [h _ _, bitrev_permute_length]
  intro L
  induction L with
  | nil => intro st; rfl
  | cons a L ih =>
    intro st
    rw [List.foldl_cons, ih]
    exact fft_merge_pass_length _ _ _

theorem direct_ft_length (x : List ℂ) : (direct_ft x).length = x.length := by
  rw [direct_ft_eq_dft, dft_length]

/-! ### Claimed properties -/

/-- C1: for every complex sequence `x` of length `N ≥ 1`, `direct_ft` returns
a sequence of length `N` with `X[k] = Σ_{n=0}^{N-1} x[n]·e^(−2πi·k·n/N)` for
every `k < N`; the running-product twiddle updates of the code (`Wkn`
multiplied by `Wk` each inner step, `Wk` multiplied by `W` each outer step)
compute exactly these exponential coefficients. -/
theorem direct_ft_computes_dft_formula (x : List ℂ) (hx : 1 ≤ x.length) :
    (direct_ft x).length = x.length ∧
    ∀ k, k < x.length →
      (direct_ft x).getD k 0 =
        ∑ n ∈ Finset.range x.length,
          x.getD n 0 * Complex.exp (-(2 * (Real.pi : ℂ) * Complex.I * k * n) /
            x.length) := by
  refine ⟨direct_ft_length x, fun k hk => ?_⟩
  rw [direct_ft_eq_dft, dft_getD x hk]

/-- Witness for C1 at the concrete input `[1, 2]`, coefficient `k = 1`. -/
theorem direct_ft_computes_dft_formula_witness :
    1 ≤ ([1, 2] : List ℂ).length ∧
      (direct_ft [1, 2]).getD 1 0 =
        ∑ n ∈ Finset.range ([1, 2] : List ℂ).length,
          ([1, 2] : List ℂ).getD n 0 *
            Complex.exp (-(2 * (Real.pi : ℂ) * Complex.I * ((1 : ℕ) : ℂ) * n) /
              (([1, 2] : List ℂ).length : ℂ)) :=
  ⟨by decide, (direct_ft_computes_dft_formula [1, 2] (by decide)).2 1 (by decide)⟩

/-- C2: every strategy applicable to an input of length `N` agrees
element-wise with `direct_ft` on that input, exactly, over ideal complex
arithmetic: `recursive_fft` and `iterative_fft` for every power-of-two
length, `anyfft.recursive_fft` for every length `N ≥ 1`. -/
theorem strategies_agree_with_direct_ft :
    (∀ (m : ℕ) (x : List ℂ), x.length = 2 ^ m → recursive_fft x = direct_ft x) ∧
    (∀ (m : ℕ) (x : List ℂ), x.length = 2 ^ m → iterative_fft x = direct_ft x) ∧
    (∀ x : List ℂ, 1 ≤ x.length → anyfft.recursive_fft x = direct_ft x) := by
  refine ⟨fun m x hx => ?_, fun m x hx => ?_, fun x _ => ?_⟩
  · rw [recursive_fft_eq_dft m x hx, direct_ft_eq_dft]
  · rw [iterative_fft_eq_dft x m hx, direct_ft_eq_dft]
  · rw [anyfft_recursive_fft_eq_dft, direct_ft_eq_dft]

/-- Witness for C2 at `[1, 2]` (radix-2 recursive), `[3, 4, 5, 6]`
(radix-2 iterative) and `[1, 2, 3]` (mixed radix). -/
theorem strategies_agree_with_direct_ft_witness :
    (([1, 2] : List ℂ).length = 2 ^ 1 ∧ recursive_fft [1, 2] = direct_ft [1, 2]) ∧
    (([3, 4, 5, 6] : List ℂ).length = 2 ^ 2 ∧
      iterative_fft [3, 4, 5, 6] = direct_ft [3, 4, 5, 6]) ∧
    (1 ≤ ([1, 2, 3] : List ℂ).length ∧
      anyfft.recursive_fft [1, 2, 3] = direct_ft [1, 2, 3]) :=
  ⟨⟨by decide, strategies_agree_with_direct_ft.1 1 [1, 2] (by decide)⟩,
   ⟨by decide, strategies_agree_with_direct_ft.2.1 2 [3, 4, 5, 6] (by decide)⟩,
   ⟨by decide, strategies_agree_with_direct_ft.2.2 [1, 2, 3] (by decide)⟩⟩

/-- C3: on power-of-two input, `recursive_fft` returns a length-1 input
unchanged, and otherwise satisfies the decimation-in-time butterfly
equations `X[k] = Xe[k] + W_k·Xo[k]`, `X[k+N/2] = Xe[k] − W_k·Xo[k]` with
`Xe`, `Xo` the recursive transforms of the even/odd subsequences and
`W_k = e^(−2πik/N)`, for every `k < N/2`. -/
theorem recursive_fft_butterfly_structure (x : List ℂ) (m : ℕ)
    (hx : x.length = 2 ^ m) :
    (x.length = 1 → recursive_fft x = x) ∧
    (2 ≤ x.length → ∀ k, k < x.length / 2 →
      (recursive_fft x).getD k 0 =
        (recursive_fft (strided x 0 2)).getD k 0 +
          Complex.exp (-(2 * (Real.pi : ℂ) * Complex.I * k) / x.length) *
            (recursive_fft (strided x 1 2)).getD k 0 ∧
      (recursive_fft x).getD (k + x.length / 2) 0 =
        (recursive_fft (strided x 0 2)).getD k 0 -
          Complex.exp (-(2 * (Real.pi : ℂ) * Complex.I * k) / x.length) *
            (recursive_fft (strided x 1 2)).getD k 0) := by
  constructor
  · intro h1
    rw [recursive_fft, dif_pos (by omega)]
  · intro h2 k hk
    obtain ⟨q, hq⟩ : ∃ q, m = q + 1 := by
      refine ⟨m - 1, ?_⟩
      rcases Nat.eq_zero_or_pos m with rfl | hm
      · rw [pow_zero] at hx; omega
      · omega
    subst hq
    have hxq : x.length = 2 * 2 ^ q := by rw [hx, pow_succ]; ring
    have hdiv : x.length / 2 = 2 ^ q := by omega
    have hElen : (strided x 0 2).length = 2 ^ q := by rw [strided_length]; omega
    have hOlen : (strided x 1 2).length = 2 ^ q := by rw [strided_length]; omega
    rw [recursive_fft_eq_dft (q + 1) x hx, recursive_fft_eq_dft q _ hElen,
      recursive_fft_eq_dft q _ hOlen]
    have hy' : (strided x 0 1).length = 2 * 2 ^ q := by rw [strided_length]; omega
    have hE' : (strided x 0 (2 * 1)).length = 2 ^ q := by simpa using hElen
    have hO' : (strided x (0 + 1) (2 * 1)).length = 2 ^ q := by simpa using hOlen
    have hk' : k < 2 ^ q := by rwa [hdiv] at hk
    obtain ⟨kp, km⟩ := dft_merge x 0 1 (2 ^ q) hy' hE' hO' hk'
    rw [strided_zero_one] at kp km
    simp only [mul_one, zero_add] at kp km
    rw [show 2 * 2 ^ q = x.length from hxq.symm] at kp km
    exact ⟨kp, by rw [hdiv]; exact km⟩

/-- Witness for C3 at `[1, 2, 3, 4]` (`N = 4`, `m = 2`), `k = 1`. -/
theorem recursive_fft_butterfly_structure_witness :
    ([1, 2, 3, 4] : List ℂ).length = 2 ^ 2 ∧ 2 ≤ ([1, 2, 3, 4] : List ℂ).length ∧
    1 < ([1, 2, 3, 4] : List ℂ).length / 2 ∧
    ((recursive_fft [1, 2, 3, 4]).getD 1 0 =
        (recursive_fft (strided [1, 2, 3, 4] 0 2)).getD 1 0 +
          Complex.exp (-(2 * (Real.pi : ℂ) * Complex.I * ((1 : ℕ) : ℂ)) /
            (([1, 2, 3, 4] : List ℂ).length : ℂ)) *
            (recursive_fft (strided [1, 2, 3, 4] 1 2)).getD 1 0 ∧
      (recursive_fft [1, 2, 3, 4]).getD (1 + ([1, 2, 3, 4] : List ℂ).length / 2) 0 =
        (recursive_fft (strided [1, 2, 3, 4] 0 2)).getD 1 0 -
          Complex.exp (-(2 * (Real.pi : ℂ) * Complex.I * ((1 : ℕ) : ℂ)) /
            (([1, 2, 3, 4] : List ℂ).length : ℂ)) *
            (recursive_fft (strided [1, 2, 3, 4] 1 2)).getD 1 0) :=
  ⟨by decide, by decide, by decide,
   (recursive_fft_butterfly_structure [1, 2, 3, 4] 2 (by decide)).2 (by decide) 1
     (by decide)⟩

/-- C4: whenever `FactorFinder` returns the length itself (prime length, and
also `N = 1`), `anyfft.recursive_fft` delegates to `direct_ft` and returns
exactly the same output. -/
theorem mixed_radix_prime_delegates (x : List ℂ)
    (h : anyfft.__factor x.length = x.length) :
    anyfft.recursive_fft x = direct_ft x := by
  rw [anyfft.recursive_fft, dif_pos h]

/-- Witness for C4 at the prime length 3. -/
theorem mixed_radix_prime_delegates_witness :
    anyfft.__factor ([1, 2, 3] : List ℂ).length = ([1, 2, 3] : List ℂ).length ∧
      anyfft.recursive_fft [1, 2, 3] = direct_ft [1, 2, 3] :=
  ⟨by decide, mixed_radix_prime_delegates [1, 2, 3] (by decide)⟩

/-- C5: for every `N ≥ 1`, `__factor` returns the smallest integer `f` with
`2 ≤ f ≤ N` and `N mod f = 0` when such a divisor exists (for `N ≥ 2` the
smallest such `f` always exists, and equals `N` itself exactly when `N` is
prime); for `N = 1` it returns 1; trial division over `2..⌈√N⌉` inclusive
suffices to find it. -/
theorem factor_finder_spec (n : ℕ) (hn : 1 ≤ n) :
    (n = 1 → anyfft.__factor n = 1) ∧
    (2 ≤ n → 2 ≤ anyfft.__factor n ∧ anyfft.__factor n ∣ n ∧ anyfft.__factor n ≤ n ∧
      ∀ f, 2 ≤ f → f ∣ n → anyfft.__factor n ≤ f) ∧
    (Nat.Prime n → anyfft.__factor n = n) := by
  refine ⟨fun h1 => by subst h1; decide, fun h2 => factor_min n h2, fun hp => ?_⟩
  obtain ⟨hf2, hfd, hfle, -⟩ := factor_min n hp.two_le
  rcases (Nat.Prime.eq_one_or_self_of_dvd hp _ hfd) with h | h
  · omega
  · exact h

/-- Witness for C5 at `n = 6` (where `__factor 6 = 2`) and, via the theorem,
the divisor properties. -/
theorem factor_finder_spec_witness :
    1 ≤ 6 ∧ anyfft.__factor 6 = 2 ∧
      2 ≤ anyfft.__factor 6 ∧ anyfft.__factor 6 ∣ 6 ∧ anyfft.__factor 6 ≤ 6 :=
  ⟨by decide, by decide,
   ((factor_finder_spec 6 (by decide)).2.1 (by decide)).1,
   ((factor_finder_spec 6 (by decide)).2.1 (by decide)).2.1,
   ((factor_finder_spec 6 (by decide)).2.1 (by decide)).2.2.1⟩

/-- C6: the in-place update sequence of `iterative_fft`'s innermost loop —
`X[q] = X[p] − Wkn·X[q]` followed by `X[p] = 2·X[p] − X[q]` — produces
exactly the standard butterfly values `X[p] + Wkn·X[q]` and
`X[p] − Wkn·X[q]` (with running twiddle `Wkn = W^n`), for every twiddle
base `W`, every block and every in-range offset. -/
theorem inplace_butterfly_is_standard (W : ℂ) (l step : ℕ) (X : List ℂ)
    (hs : 1 ≤ step) (hb : l + 2 * step ≤ X.length) (n : ℕ) (hn : n < step) :
    (butterfly_block W l step X).getD (l + n) 0 =
      X.getD (l + n) 0 + W ^ n * X.getD (l + n + step) 0 ∧
    (butterfly_block W l step X).getD (l + n + step) 0 =
      X.getD (l + n) 0 - W ^ n * X.getD (l + n + step) 0 := by
  obtain ⟨-, hval⟩ := butterfly_block_spec W l step X hs hb
  constructor
  · rw [hval (l + n) (by omega), if_pos ⟨by omega, by omega⟩,
      show l + n - l = n from by omega]
  · rw [hval (l + n + step) (by omega), if_neg (by omega),
      if_pos ⟨by omega, by omega⟩,
      show l + n + step - l - step = n from by omega,
      show l + n + step - step = l + n from by omega]

/-- Witness for C6: one butterfly on `[3, 7]` with twiddle base 2. -/
theorem inplace_butterfly_is_standard_witness :
    1 ≤ 1 ∧ 0 + 2 * 1 ≤ ([3, 7] : List ℂ).length ∧ 0 < 1 ∧
    ((butterfly_block 2 0 1 [3, 7]).getD (0 + 0) 0 =
        ([3, 7] : List ℂ).getD (0 + 0) 0 +
          (2 : ℂ) ^ 0 * ([3, 7] : List ℂ).getD (0 + 0 + 1) 0 ∧
      (butterfly_block 2 0 1 [3, 7]).getD (0 + 0 + 1) 0 =
        ([3, 7] : List ℂ).getD (0 + 0) 0 -
          (2 : ℂ) ^ 0 * ([3, 7] : List ℂ).getD (0 + 0 + 1) 0) :=
  ⟨by decide, by decide, by decide,
   inplace_butterfly_is_standard 2 0 1 [3, 7] (by decide) (by decide) 0 (by decide)⟩

/-- C7: for every `r ≥ 1` and every `k < 2^r`, `bit_reverse` is an
involution: `bit_reverse (bit_reverse k r) r = k`. -/
theorem bit_reverse_involution (r k : ℕ) (hr : 1 ≤ r) (hk : k < 2 ^ r) :
    bit_reverse (bit_reverse k r) r = k :=
  bit_reverse_bit_reverse hk

/-- Witness for C7 at `r = 3`, `k = 5`. -/
theorem bit_reverse_involution_witness :
    1 ≤ 3 ∧ 5 < 2 ^ 3 ∧ bit_reverse (bit_reverse 5 3) 3 = 5 :=
  ⟨by decide, by decide, bit_reverse_involution 3 5 (by decide) (by decide)⟩

/-- C8: for every strategy and every input of a length valid for that
strategy, the output has exactly the input's length (`direct_ft`,
`iterative_fft` and `anyfft.recursive_fft` preserve the length of every
input; `recursive_fft` that of every power-of-two input). -/
theorem output_length_eq_input_length :
    (∀ x : List ℂ, (direct_ft x).length = x.length) ∧
    (∀ (m : ℕ) (x : List ℂ), x.length = 2 ^ m → (recursive_fft x).length = x.length) ∧
    (∀ x : List ℂ, (iterative_fft x).length = x.length) ∧
    (∀ x : List ℂ, (anyfft.recursive_fft x).length = x.length) := by
  refine ⟨direct_ft_length, fun m x hx => ?_, iterative_fft_length, fun x => ?_⟩
  · rw [recursive_fft_eq_dft m x hx, dft_length]
  · rw [anyfft_recursive_fft_eq_dft, dft_length]

/-- Witness for C8 at concrete inputs for each strategy. -/
theorem output_length_eq_input_length_witness :
    (direct_ft [1]).length = ([1] : List ℂ).length ∧
    (([1, 2] : List ℂ).length = 2 ^ 1 ∧
      (recursive_fft [1, 2]).length = ([1, 2] : List ℂ).length) ∧
    (iterative_fft [1, 2]).length = ([1, 2] : List ℂ).length ∧
    (anyfft.recursive_fft [1, 2, 3]).length = ([1, 2, 3] : List ℂ).length :=
  ⟨output_length_eq_input_length.1 [1],
   ⟨by decide, output_length_eq_input_length.2.1 1 [1, 2] (by decide)⟩,
   output_length_eq_input_length.2.2.1 [1, 2],
   output_length_eq_input_length.2.2.2 [1, 2, 3]⟩

/-- C9 counterexample: on the empty sequence, MixedRadixTransform
(`anyfft.recursive_fft`) reaches its normal delegation path and returns the
empty sequence rather than rejecting the input — no strategy contains an
explicit `N = 0` check. -/
theorem mixed_radix_empty_returns_result :
    anyfft.recursive_fft ([] : List ℂ) = [] := by
  rw [anyfft.recursive_fft, dif_pos (by decide)]
  rfl

/-- C9 (amended): no strategy explicitly validates or rejects the empty
sequence.  In this exact-arithmetic embedding `direct_ft`, `iterative_fft`
and `anyfft.recursive_fft` simply return the empty sequence; in CPython the
same calls die incidentally — `direct_ft` (and the `anyfft` base case) with
`ZeroDivisionError` from `exp(-2j*pi/N)`, `iterative_fft` with
`OverflowError` from `int(log(0)/log(2))`, and `fft.py`'s `recursive_fft`
by unbounded recursion — none of which is an explicit rejection. -/
theorem no_explicit_empty_rejection :
    direct_ft ([] : List ℂ) = [] ∧ iterative_fft ([] : List ℂ) = [] ∧
      anyfft.recursive_fft ([] : List ℂ) = [] := by
  refine ⟨rfl, ?_, by rw [anyfft.recursive_fft, dif_pos (by decide)]; rfl⟩
  have h := iterative_fft_length ([] : List ℂ)
  exact List.length_eq_zero.mp (by simpa using h)

/-- C10: `bit_reverse k r` always lies in `[0, 2^r)`; consequently the
bit-reversal reordering of `iterative_fft` writes every sample to an
in-bounds index of the length-`N` buffer (`bitrev_permute` preserves the
length) and the index map is a permutation of `0..N-1` (injective and
surjective on that range). -/
theorem bit_reverse_bounds_and_permutation (r : ℕ) :
    (∀ k, k < 2 ^ r → bit_reverse k r < 2 ^ r) ∧
    (∀ k1, k1 < 2 ^ r → ∀ k2, k2 < 2 ^ r →
      bit_reverse k1 r = bit_reverse k2 r → k1 = k2) ∧
    (∀ l, l < 2 ^ r → ∃ k, k < 2 ^ r ∧ bit_reverse k r = l) ∧
    (∀ x : List ℂ, x.length = 2 ^ r → (bitrev_permute x r).length = x.length) := by
  refine ⟨fun k _ => bit_reverse_lt k r, fun k1 h1 k2 h2 hEq => ?_,
    fun l hl => ⟨bit_reverse l r, bit_reverse_lt l r, bit_reverse_bit_reverse hl⟩,
    fun x _ => bitrev_permute_length x r⟩
  have hcong := congrArg (fun z => bit_reverse z r) hEq
  simpa [bit_reverse_bit_reverse h1, bit_reverse_bit_reverse h2] using hcong

/-- Witness for C10 at `r = 2` with the buffer `[1, 2, 3, 4]`. -/
theorem bit_reverse_bounds_and_permutation_witness :
    (1 < 2 ^ 2 ∧ bit_reverse 1 2 < 2 ^ 2) ∧
    (3 < 2 ^ 2 ∧ ∃ k, k < 2 ^ 2 ∧ bit_reverse k 2 = 3) ∧
    ([1, 2, 3, 4] : List ℂ).length = 2 ^ 2 ∧
    (bitrev_permute [1, 2, 3, 4] 2).length = ([1, 2, 3, 4] : List ℂ).length :=
  ⟨⟨by decide, (bit_reverse_bounds_and_permutation 2).1 1 (by decide)⟩,
   ⟨by decide, (bit_reverse_bounds_and_permutation 2).2.2.1 3 (by decide)⟩,
   by decide,
   (bit_reverse_bounds_and_permutation 2).2.2.2 [1, 2, 3, 4] (by decide)⟩
